import Mathlib

/-!
Verification of the cmakelint engine (src/cmakelint/__main__.py).

Lines, filenames, categories and messages are modelled as `List Char`.
Character classes follow the ASCII reading of the Python `\w`, `\s`,
`str.lower`, `str.upper`, `str.isupper`, `str.strip` and `str.rstrip`.
Regular-expression driven helpers are embedded as explicit scanners with
the leftmost/greedy semantics of the concrete patterns used by the code
(`_RE_COMMAND`, `_RE_COMMAND_START_SPACES`, `_RE_COMMAND_END_SPACES`,
`_RE_LOGIC_CHECK`, `_RE_COMMAND_ARG`).  Fallible code paths (the unbounded
index in `get_command_argument`) are returned as `Option`, `none` standing
for the raised `IndexError`.
-/

namespace Cmakelint

/-- ASCII model of the Python whitespace class (`\s`, `str.isspace`). -/
def isPySpace (c : Char) : Bool :=
  c = ' ' || c = '\t' || c = '\n' || c = '\r' || c = '\x0b' || c = '\x0c'

/-- ASCII model of the Python word-character class `\w`. -/
def isWordChar (c : Char) : Bool :=
  c.isAlphanum || c = '_'

/-- ASCII model of Python `str.lower`. -/
def pyLower (s : List Char) : List Char := s.map Char.toLower

/-- ASCII model of Python `str.upper`. -/
def pyUpper (s : List Char) : List Char := s.map Char.toUpper

/-- Drop the trailing characters satisfying `p` (helper for `rstrip`). -/
def dropTrailing (p : Char → Bool) (l : List Char) : List Char :=
  (l.reverse.dropWhile p).reverse

/-- Python `str.rstrip()` (no argument): drop trailing whitespace. -/
def pyRstrip (l : List Char) : List Char := dropTrailing isPySpace l

/-- Python `str.strip()`: drop leading and trailing whitespace. -/
def pyStrip (l : List Char) : List Char := dropTrailing isPySpace (l.dropWhile isPySpace)

/-- Python `str.split(",")`: split at every comma; the empty string yields
one empty piece. -/
def splitComma : List Char → List (List Char)
  | [] => [[]]
  | c :: rest =>
    if c = ',' then [] :: splitComma rest
    else
      match splitComma rest with
      | p :: ps => (c :: p) :: ps
      | [] => [[c]]

/-- Model of `os.path.basename` for POSIX paths: the part after the last `/`. -/
def basename (p : List Char) : List Char :=
  (p.reverse.takeWhile (fun c => !(c = '/'))).reverse

/-- A reported finding: the `(linenumber, category, message)` of one call of
the `errors` callback (the filename argument is the constant name of the
file being processed and is left implicit). -/
structure Finding where
  line : Nat
  category : List Char
  message : List Char
deriving DecidableEq, Repr

/-! ## CommentStripper: `clean_comments` -/

/-- The character loop of `clean_comments`, lines 192–205 of the source.
`prev` is the previously scanned character (`none` initially, the Python `""`), `quote` the carried quote state.  Returns the collected output
characters, the final quote state, and whether the loop exited through
`break` (a `#` met outside quotes). -/
def cleanCommentsLoop : List Char → Option Char → Bool → List Char × Bool × Bool
  | [], _, quote => ([], quote, false)
  | c :: rest, prev, quote =>
    if c = '"' then
      if prev = some '\\' then
        cleanCommentsLoop rest (some c) quote
      else
        let r := cleanCommentsLoop rest (some c) (!quote)
        (c :: r.1, r.2)
    else if c = '#' && !quote then
      ([], quote, true)
    else
      let r := cleanCommentsLoop rest (some c) quote
      (if quote then r.1 else c :: r.1, r.2)

/-- Model of `clean_comments(line, quote)`: fast path when the line holds neither
`#` nor `"`, otherwise the scan followed by `rstrip`. -/
def clean_comments (line : List Char) (quote : Bool) : List Char × Bool :=
  if !line.contains '#' && !line.contains '"' then
    if quote then ([], quote) else (line, quote)
  else
    let r := cleanCommentsLoop line none quote
    (pyRstrip r.1, r.2.1)

/-- Model of `CleansedLines.__init__`: cleanse every line, threading the quote
state across line boundaries. -/
def cleanse : List (List Char) → Bool → List (List Char)
  | [], _ => []
  | l :: ls, quote =>
    let r := clean_comments l quote
    r.1 :: cleanse ls r.2

/-! ## Command recognition (`_RE_COMMAND` and friends) -/

/-- Matcher for `_RE_COMMAND = ^\s*(\w+)(\s*)\(`: returns the command name
(group 1) and the gap between it and the parenthesis (group 2). -/
def reCommandMatch (line : List Char) : Option (List Char × List Char) :=
  let s0 := line.dropWhile isPySpace
  let w := s0.takeWhile isWordChar
  if w.isEmpty then none
  else
    let s1 := (s0.drop w.length).takeWhile isPySpace
    match (s0.drop w.length).drop s1.length with
    | '(' :: _ => some (w, s1)
    | _ => none

/-- Model of `contains_command`. -/
def contains_command (line : List Char) : Bool :=
  (reCommandMatch line).isSome

/-- Model of `get_command`: the matched command name, `""` when there is none. -/
def get_command (line : List Char) : List Char :=
  match reCommandMatch line with
  | some m => m.1
  | none => []

/-- Model of `is_command_mixed_case`. -/
def is_command_mixed_case (command : List Char) : Bool :=
  !(command = pyLower command || command = pyUpper command)

/-- Model of `is_command_upper_case`. -/
def is_command_upper_case (command : List Char) : Bool :=
  command = pyUpper command

/-- Model of `get_initial_spaces`: leading run of `' '` characters. -/
def get_initial_spaces (line : List Char) : Nat :=
  (line.takeWhile (fun c => c = ' ')).length

/-- Matcher for `_RE_COMMAND_START_SPACES = ^\s*\w+\s*\((\s*)`: length of
the whitespace run just after the opening parenthesis. -/
def reStartSpaces (line : List Char) : Option Nat :=
  let s0 := line.dropWhile isPySpace
  let w := s0.takeWhile isWordChar
  if w.isEmpty then none
  else
    let s1 := (s0.drop w.length).takeWhile isPySpace
    match (s0.drop w.length).drop s1.length with
    | '(' :: r => some (r.takeWhile isPySpace).length
    | _ => none

/-- Search for `_RE_COMMAND_END_SPACES = (\s*)\)`: the leftmost match is at
the first `)`, its group 1 the maximal whitespace run right before it.
Returns the length of that run, `none` when the line has no `)`.
`run` carries the length of the whitespace run ending at the cursor. -/
def endSpacesAux : List Char → Nat → Option Nat
  | [], _ => none
  | c :: rest, run =>
    if c = ')' then some run
    else if isPySpace c then endSpacesAux rest (run + 1)
    else endSpacesAux rest 0

/-- Group-1 length of the leftmost `(\s*)\)` match on a line. -/
def reEndSpaces (line : List Char) : Option Nat :=
  endSpacesAux line 0

/-! ## `check_repeat_logic` and `_RE_LOGIC_CHECK` -/

/-- Model of `_logic_commands`, in source order. -/
def logicCommands : List (List Char) :=
  ["else".data, "endforeach".data, "endfunction".data, "endif".data,
   "endmacro".data, "endwhile".data]

/-- Boundary test for `\b` just before position `p` of `t`. -/
def boundaryBefore (t : List Char) (p : Nat) : Bool :=
  match p with
  | 0 => true
  | q + 1 =>
    match t.get? q with
    | some c => !isWordChar c
    | none => true

/-- Boundary test for `\b` just after position `p` of `t`. -/
def boundaryAfter (t : List Char) (p : Nat) : Bool :=
  match t.get? p with
  | some c => !isWordChar c
  | none => true

/-- Model of `re.search(r"\b<kw>\b", t)` for a fixed word `kw`: some position holds
`kw` with non-word characters (or the ends of the string) on both sides. -/
def wordOccurs (kw : List Char) (t : List Char) : Bool :=
  (List.range (t.length + 1)).any fun p =>
    ((t.drop p).take kw.length = kw) && boundaryBefore t p
      && boundaryAfter t (p + kw.length)

/-- The `for cmd in _logic_commands` loop head: the first keyword (in the
fixed order) found as a whole word in the lowered line, after which the
loop breaks. -/
def findFirstKeyword (lowered : List Char) : Option (List Char) :=
  logicCommands.find? fun kw => wordOccurs kw lowered

/-- Tail of `_RE_LOGIC_CHECK` after the opening parenthesis and its
whitespace: `\S+[^)]+\)` matches `t` at its start iff `t` can be split as
a nonempty non-whitespace run, then a nonempty run without `)`, then `)`. -/
def tailMatches (t : List Char) : Bool :=
  (List.range t.length).any fun k =>
    decide (0 < k) && (t.take k).all (fun c => !isPySpace c)
      && ((List.range t.length).any fun m =>
        decide (0 < m) && ((t.drop k).take m).all (fun c => !(c = ')'))
          && decide (t.get? (k + m) = some ')'))

/-- Model of `_RE_LOGIC_CHECK = (\w+)\s*\(\s*\S+[^)]+\)` tried at the start of `s`:
the maximal word run, optional whitespace, `(`, optional whitespace, then
`tailMatches`.  Returns group 1. -/
def logicMatchAt (s : List Char) : Option (List Char) :=
  let w := s.takeWhile isWordChar
  if w.isEmpty then none
  else
    let d := (s.drop w.length).dropWhile isPySpace
    if d.head? = some '(' then
      if tailMatches (d.tail.dropWhile isPySpace) then some w else none
    else none

/-- Model of `_RE_LOGIC_CHECK.search(line)`: leftmost match, returning group 1. -/
def logicSearch : List Char → Option (List Char)
  | [] => none
  | c :: rest =>
    match logicMatchAt (c :: rest) with
    | some w => some w
    | none => logicSearch rest

/-- Model of `check_repeat_logic` on one cleansed line. -/
def check_repeat_logic (linenumber : Nat) (line : List Char) : List Finding :=
  match findFirstKeyword (pyLower line) with
  | none => []
  | some cmd =>
    match logicSearch line with
    | none => []
    | some g =>
      [⟨linenumber, "readability/logic".data,
        "Expression repeated inside ".data ++ cmd
          ++ "; better to use only ".data ++ g ++ "()".data⟩]

/-! ## The remaining per-line checks -/

/-- Model of `check_line_length` (on the raw line). -/
def check_line_length (linelength : Nat) (n : Nat) (raw : List Char) : List Finding :=
  if raw.length > linelength then
    [⟨n, "linelength".data,
      "Lines should be <= ".data ++ (Nat.repr linelength).data
        ++ " characters long".data⟩]
  else []

/-- Model of `check_indent` (on the raw line). -/
def check_indent (spaces : Nat) (n : Nat) (raw : List Char) : List Finding :=
  if get_initial_spaces raw % spaces ≠ 0 then
    [⟨n, "whitespace/indent".data,
      "Weird indentation; use ".data ++ (Nat.repr spaces).data ++ " spaces".data⟩]
  else []

/-- The forward scan of `check_command_spaces` for a line containing `)`:
mirrors the `while True` loop over `clean_lines.lines` starting at the
initial line.  Returns the line number where the end was found, the
matched `(\s*)\)` group length, and that line. -/
def findEndAux : List (List Char) → Nat → Option (Nat × Nat × List Char)
  | [], _ => none
  | l :: ls, idx =>
    match reEndSpaces l with
    | some k => some (idx, k, l)
    | none => findEndAux ls (idx + 1)

/-- Model of `check_command_spaces` for the command starting at line `n` of the
cleansed lines. -/
def check_command_spaces (n : Nat) (cleans : List (List Char)) : List Finding :=
  let line := (cleans.get? n).getD []
  match reCommandMatch line with
  | none => []
  | some m =>
    let extraFs :=
      if m.2.length ≠ 0 then
        [⟨n, "whitespace/extra".data,
          "Extra spaces between \x27".data ++ m.1 ++ "\x27 and its ()".data⟩]
      else []
    let spacesAfterOpen := (reStartSpaces line).getD 0
    match findEndAux (cleans.drop n) n with
    | none =>
      extraFs ++ [⟨n, "syntax".data, "Unable to find the end of this command".data⟩]
    | some r =>
      let initialSp := get_initial_spaces r.2.2
      let spacesBeforeEnd :=
        if n ≠ r.1 ∧ r.2.1 ≥ initialSp then r.2.1 - initialSp else r.2.1
      if spacesAfterOpen ≠ spacesBeforeEnd then
        extraFs ++ [⟨n, "whitespace/mismatch".data,
          "Mismatching spaces inside () after command".data⟩]
      else extraFs

/-- Model of `check_style`: indentation, command spaces, tabs, trailing whitespace,
repeated logic, in source order. -/
def check_style (spaces : Nat) (n : Nat) (raw : List Char)
    (cleans : List (List Char)) : List Finding :=
  check_indent spaces n raw ++ check_command_spaces n cleans
    ++ (if raw.contains '\t' then
          [⟨n, "whitespace/tabs".data, "Tab found; please use spaces".data⟩]
        else [])
    ++ (match raw.getLast? with
        | some c =>
          if isPySpace c then
            [⟨n, "whitespace/eol".data, "Line ends in whitespace".data⟩]
          else []
        | none => [])
    ++ check_repeat_logic n ((cleans.get? n).getD [])

/-- Model of `check_upper_lower_case`, with the per-file `have_seen_uppercase`
state passed and returned explicitly: `none` models the initial Python
`None`, the `is None` test and the `!=` comparison are expressed on
`Option Bool`. -/
def check_upper_lower_case (n : Nat) (line : List Char) (seen : Option Bool) :
    List Finding × Option Bool :=
  if contains_command line then
    if is_command_mixed_case (get_command line) then
      ([⟨n, "readability/wonkycase".data, "Do not use mixed case commands".data⟩],
       seen)
    else if seen = none then
      ([], some (is_command_upper_case (get_command line)))
    else if some (is_command_upper_case (get_command line)) ≠ seen then
      ([⟨n, "readability/mixedcase".data,
        "Do not mix upper and lower case commands".data⟩], seen)
    else ([], seen)
  else ([], seen)

/-- Folding `check_upper_lower_case` over successive cleansed lines,
numbering them from `n`. -/
def caseFold : List (List Char) → Nat → Option Bool → List Finding × Option Bool
  | [], _, seen => ([], seen)
  | l :: ls, n, seen =>
    let r := check_upper_lower_case n l seen
    let r' := caseFold ls (n + 1) r.2
    (r.1 ++ r'.1, r'.2)

/-! ## Filename conventions and the Find-package tracker -/

/-- Greedy split of `t` at the rightmost occurrence of `.cmake`:
the largest `i` with `.cmake` at position `i` of `t`.  This is the
behaviour of `(.*)\.cmake` after a greedy `.*`. -/
def lastCmakeSplit (t : List Char) : Option (List Char × List Char) :=
  (((List.range (t.length + 1)).reverse.find? fun i =>
      ".cmake".data.isPrefixOf (t.drop i))).map
    fun i => (t.take i, t.drop (i + 6))

/-- Model of `re.match(r"Find(.*)\.cmake", base)`: group 1 of the (greedy,
unanchored-at-the-end) match, `none` when the name does not match. -/
def findNameMatch (base : List Char) : Option (List Char) :=
  if "Find".data.isPrefixOf base then
    (lastCmakeSplit (base.drop 4)).map Prod.fst
  else none

/-- ASCII model of Python `str.isupper`: at least one cased character and
no lowercase one. -/
def pyIsUpper (s : List Char) : Bool :=
  s.any (fun c => c.isAlpha) && s.all (fun c => !c.isLower)

/-- Model of `check_file_name`.  The `Find` branch tests the basename; the
`CMakeLists.txt` branch compares the full `filename` (as the source
does). -/
def check_file_name (filename : List Char) : List Finding :=
  match findNameMatch (basename filename) with
  | some package =>
    if !pyIsUpper package then
      [⟨0, "convention/filename".data,
        "Find modules should use uppercase names; consider using Find".data
          ++ pyUpper package ++ ".cmake".data⟩]
    else []
  | none =>
    if pyLower filename = "cmakelists.txt".data
        ∧ filename ≠ "CMakeLists.txt".data then
      [⟨0, "convention/filename".data, "File should be called CMakeLists.txt".data⟩]
    else []

/-- Model of `is_find_package`: basename starts with `Find` and the full filename
ends with `.cmake`. -/
def is_find_package (filename : List Char) : Bool :=
  "Find".data.isPrefixOf (basename filename) && ".cmake".data.isSuffixOf filename

/-- Model of `_CMakePackageState` without its never-read `sets` list. -/
structure PkgState where
  have_included_stdargs : Bool
  have_used_stdargs : Bool
deriving DecidableEq, Repr

/-- Model of `_CMakePackageState._get_expected`: `re.sub` keeps the part of the
basename after the greedy match and replaces the match by group 1, then
the result is uppercased. -/
def getExpected (filename : List Char) : List Char :=
  let package := basename filename
  let replaced :=
    match (if "Find".data.isPrefixOf package
           then lastCmakeSplit (package.drop 4) else none) with
    | some gr => gr.1 ++ gr.2
    | none => package
  pyUpper replaced

/-- Model of `_CMakePackageState.done`: the emitted findings and the state after
the `finally` reset (which runs on every path, the early returns
included). -/
def PkgState.done (filename : List Char) (st : PkgState) :
    List Finding × PkgState :=
  let fs :=
    if !is_find_package filename then []
    else if st.have_included_stdargs && st.have_used_stdargs then []
    else
      (if !st.have_included_stdargs then
        [⟨0, "package/consistency".data,
          "Package should include FindPackageHandleStandardArgs".data⟩]
       else [])
      ++ (if !st.have_used_stdargs then
        [⟨0, "package/consistency".data,
          "Package should use FIND_PACKAGE_HANDLE_STANDARD_ARGS".data⟩]
       else [])
  (fs, ⟨false, false⟩)

/-- Model of `_CMakePackageState.have_used_standard_args`: marks the state used and
reports `package/stdargs` when the passed variable differs from the
expected package name. -/
def have_used_standard_args (filename : List Char) (linenumber : Nat)
    (var : List Char) (st : PkgState) : List Finding × PkgState :=
  let expected := getExpected filename
  ((if expected ≠ var then
      [⟨linenumber, "package/stdargs".data,
        "Weird variable passed to std args, should be ".data ++ expected
          ++ " not ".data ++ var⟩]
    else []),
   { st with have_used_stdargs := true })

/-- Model of `_CMakePackageState.have_included`. -/
def have_included (st : PkgState) (var : List Char) : PkgState :=
  if var = "FindPackageHandleStandardArgs".data then
    { st with have_included_stdargs := true }
  else st

/-- Scanner for `_RE_COMMAND_ARG.finditer`: collect the maximal word runs
of a line; `acc` holds the reversed characters of the run in progress. -/
def wordTokensAux : List Char → Option (List Char) → List (List Char)
  | [], none => []
  | [], some w => [w.reverse]
  | c :: rest, none =>
    if isWordChar c then wordTokensAux rest (some [c])
    else wordTokensAux rest none
  | c :: rest, some w =>
    if isWordChar c then wordTokensAux rest (some (c :: w))
    else w.reverse :: wordTokensAux rest none

/-- Maximal word runs of a line, in order: the `group(1)` values of
`_RE_COMMAND_ARG.finditer(line)`. -/
def wordTokens (l : List Char) : List (List Char) :=
  wordTokensAux l none

/-- Model of `get_command_argument`: scan forward from line `n`, returning the
first word token different from the command name of the starting line.
The Python loop indexes `clean_lines.lines[linenumber]` without a bound:
running past the last line raises `IndexError`, modelled as `none`. -/
def getCommandArgAux (skip : List Char) : List (List Char) → Option (List Char)
  | [] => none
  | l :: ls =>
    match (wordTokens l).find? (fun t => t ≠ skip) with
    | some t => some t
    | none => getCommandArgAux skip ls

/-- Model of `get_command_argument(linenumber, clean_lines)`. -/
def get_command_argument (cleans : List (List Char)) (n : Nat) :
    Option (List Char) :=
  let skip := get_command ((cleans.get? n).getD [])
  getCommandArgAux skip (cleans.drop n)

/-- Model of `check_find_package`: dispatch on the command of the current line;
`none` propagates the `IndexError` of `get_command_argument`. -/
def check_find_package (filename : List Char) (n : Nat)
    (cleans : List (List Char)) (st : PkgState) :
    Option (List Finding × PkgState) :=
  let cmd := get_command ((cleans.get? n).getD [])
  if cmd.isEmpty then some ([], st)
  else if pyLower cmd = "include".data then
    match get_command_argument cleans n with
    | none => none
    | some v => some ([], have_included st v)
  else if pyLower cmd = "find_package_handle_standard_args".data then
    match get_command_argument cleans n with
    | none => none
    | some v => some (have_used_standard_args filename n v st)
  else some ([], st)

/-! ## Filters, pragmas and error emission -/

/-- Model of `_ERROR_CATEGORIES.split()`, the default `allowed_categories`. -/
def allowedCategories : List (List Char) :=
  ["convention/filename".data, "linelength".data, "package/consistency".data,
   "package/stdargs".data, "readability/logic".data, "readability/mixedcase".data,
   "readability/wonkycase".data, "syntax".data, "whitespace/eol".data,
   "whitespace/extra".data, "whitespace/indent".data, "whitespace/mismatch".data,
   "whitespace/newline".data, "whitespace/tabs".data]

/-- Validation of one filter entry by the loop of `set_filters`: the
`ValueError` message when the entry is rejected, `none` when accepted. -/
def filterError (f : List Char) : Option (List Char) :=
  match f with
  | '-' :: rest =>
    if allowedCategories.any (fun c => rest.isPrefixOf c) then none
    else some ("Filter not allowed: -".data ++ rest)
  | '+' :: rest =>
    if allowedCategories.any (fun c => rest.isPrefixOf c) then none
    else some ("Filter not allowed: +".data ++ rest)
  | _ => some "Filter should start with - or +".data

/-- The argument of `set_filters`: a Python list or a comma-separated
string. -/
inductive FiltersArg where
  | ofList : List (List Char) → FiltersArg
  | ofStr : List Char → FiltersArg

/-- The entries `set_filters` appends: the list itself, or
`[f.strip() for f in s.split(",") if f]`. -/
def filtersEntries : FiltersArg → List (List Char)
  | .ofList l => l
  | .ofStr s => ((splitComma s).filter (fun p => !p.isEmpty)).map pyStrip

/-- Model of `_CMakeLintState.set_filters`: a falsy argument returns unchanged;
otherwise the entries are all appended first and the whole filter list is
only then validated, the first offending entry raising `ValueError`
(returned as `some message`; the extended list stays in place). -/
def set_filters (cur : List (List Char)) (arg : FiltersArg) :
    List (List Char) × Option (List Char) :=
  match arg with
  | .ofList [] => (cur, none)
  | .ofStr [] => (cur, none)
  | _ =>
    let newFilters := cur ++ filtersEntries arg
    (newFilters, newFilters.findSome? filterError)

/-- Model of `should_print_error`: the last matching `+`/`-` filter wins. -/
def should_print_error (filters : List (List Char)) (category : List Char) : Bool :=
  filters.foldl
    (fun b f =>
      match f with
      | '-' :: rest => if rest.isPrefixOf category then false else b
      | '+' :: rest => if rest.isPrefixOf category then true else b
      | _ => b)
    true

/-- The `error` function: append the finding when its category passes the
currently active filters. -/
def emit (filters : List (List Char)) (acc : List Finding) (f : Finding) :
    List Finding :=
  if should_print_error filters f.category then acc ++ [f] else acc

/-- Emit a batch of findings in order through `emit`. -/
def emitAll (filters : List (List Char)) (acc : List Finding)
    (fs : List Finding) : List Finding :=
  fs.foldl (emit filters) acc

/-- Model of `check_lint_pragma` with an `errors` callback: on a pragma line the
remainder is handed to `set_filters`; a `ValueError` becomes one `syntax`
finding and the (already extended) filters stay active. -/
def check_lint_pragma (n : Nat) (raw : List Char)
    (filters : List (List Char)) : List (List Char) × List Finding :=
  if "# lint_cmake: ".data.isPrefixOf raw then
    let r := set_filters filters (.ofStr (raw.drop "# lint_cmake: ".data.length))
    (r.1,
     match r.2 with
     | some m => [⟨n, "syntax".data, m⟩]
     | none => [])
  else (filters, [])

/-! ## The per-file pipeline (`_process_file`) -/

/-- The mutable state threaded through `process_line`: the active
filters, `CleansedLines.have_seen_uppercase`, the package state, and the
findings emitted so far. -/
structure ProcState where
  filters : List (List Char)
  seenUpper : Option Bool
  pkg : PkgState
  findings : List Finding

/-- Model of `process_line`: pragma, line length, case, style, and — only for
`Find*.cmake` files — the package checks.  `none` propagates the
`IndexError` of `get_command_argument`. -/
def process_line (filename : List Char) (spaces linelength n : Nat)
    (raws cleans : List (List Char)) (st : ProcState) : Option ProcState :=
  let raw := (raws.get? n).getD []
  let clean := (cleans.get? n).getD []
  let pr := check_lint_pragma n raw st.filters
  let acc1 := emitAll pr.1 st.findings pr.2
  let acc2 := emitAll pr.1 acc1 (check_line_length linelength n raw)
  let ul := check_upper_lower_case n clean st.seenUpper
  let acc3 := emitAll pr.1 acc2 ul.1
  let acc4 := emitAll pr.1 acc3 (check_style spaces n raw cleans)
  if is_find_package filename then
    match check_find_package filename n cleans st.pkg with
    | none => none
    | some r => some ⟨pr.1, ul.2, r.2, emitAll pr.1 acc4 r.1⟩
  else some ⟨pr.1, ul.2, st.pkg, acc4⟩

/-- The pragma handling interleaved with reading the file: during the
read loop `check_lint_pragma` runs with `errors=None`, so filters are
updated but no finding can be reported. -/
def pragmaReadPass (body : List (List Char)) (filters : List (List Char)) :
    List (List Char) :=
  body.foldl (fun fl raw => (check_lint_pragma 0 raw fl).1) filters

/-- Model of `_process_file` for an eligible file, starting from the lines of the file
(after `rstrip("\n")`): strip carriage returns, run the read-phase pragma
pass, add the sentinel lines, check the file name, report a stray `\r`
(the host convention is POSIX `\n`), process every line, and run the
terminal package check.  `none` models the uncaught `IndexError`. -/
def process_file (filename : List Char) (spaces linelength : Nat)
    (fileLines : List (List Char)) : Option (List Finding) :=
  let haveCr := fileLines.any fun l => l.getLast? = some '\r'
  let body := fileLines.map fun l =>
    if l.getLast? = some '\r' then dropTrailing (fun c => c = '\r') l else l
  let filters0 := pragmaReadPass body []
  let lines := "# Lines start at 1".data :: body ++ ["# Lines end here".data]
  let acc0 := emitAll filters0 [] (check_file_name filename)
  let acc1 :=
    if haveCr then
      emitAll filters0 acc0
        [⟨0, "whitespace/newline".data,
          "Unexpected carriage return found; better to use only \\n".data⟩]
    else acc0
  let cleans := cleanse lines false
  match (List.range lines.length).foldlM
      (fun st n => process_line filename spaces linelength n lines cleans st)
      (ProcState.mk filters0 none ⟨false, false⟩ acc1) with
  | none => none
  | some st =>
    let d := PkgState.done filename st.pkg
    some (emitAll st.filters st.findings d.1)

/-! ## Declarative predicates used to state the claims -/

/-- The condition of the repeated-logic claim, in the words of the spec: the
line (case-insensitively) contains one of the logic keywords followed by a
parenthesized expression with non-trivial content (content free of `)` and
not just whitespace). -/
def repeatLogicClaimPred (line : List Char) : Prop :=
  ∃ kw ∈ logicCommands, ∃ u mid content v : List Char,
    pyLower line = u ++ (kw ++ (mid ++ ('(' :: (content ++ (')' :: v)))))
      ∧ mid.all isPySpace = true
      ∧ content.all (fun c => !(c = ')')) = true
      ∧ content.any (fun c => !isPySpace c) = true

/-- Declarative characterization of a `_RE_LOGIC_CHECK` match somewhere in
the line: an identifier, optional whitespace, `(`, optional whitespace,
then a nonempty non-whitespace run followed by a nonempty `)`-free run and
the closing `)`. -/
def logicPatternSpec (line : List Char) : Prop :=
  ∃ u w s1 s2 x y v : List Char,
    line = u ++ (w ++ (s1 ++ ('(' :: (s2 ++ (x ++ (y ++ (')' :: v)))))))
      ∧ w ≠ [] ∧ w.all isWordChar = true
      ∧ s1.all isPySpace = true ∧ s2.all isPySpace = true
      ∧ x ≠ [] ∧ x.all (fun c => !isPySpace c) = true
      ∧ y ≠ [] ∧ y.all (fun c => !(c = ')')) = true

/-- The line starts a command whose name is strictly lowercase: equal to
its lowering and different from its uppering. -/
def strictLowerCmd (line : List Char) : Bool :=
  contains_command line && decide (get_command line = pyLower (get_command line))
    && !decide (get_command line = pyUpper (get_command line))

/-- The line starts a command whose name is strictly uppercase: equal to
its uppering and different from its lowering. -/
def strictUpperCmd (line : List Char) : Bool :=
  contains_command line && decide (get_command line = pyUpper (get_command line))
    && !decide (get_command line = pyLower (get_command line))

/-! ## Helper lemmas -/

theorem length_dropWhile_le (p : Char → Bool) (l : List Char) :
    (l.dropWhile p).length ≤ l.length := by
  induction l with
  | nil => simp
  | cons c rest ih =>
    by_cases h : p c
    · rw [List.dropWhile_cons_of_pos h]
      exact Nat.le_succ_of_le ih
    · rw [List.dropWhile_cons_of_neg h]

theorem findSome?_isSome {α β : Type} (p : α → Option β) (l : List α)
    (h : ∃ x ∈ l, (p x).isSome = true) : (l.findSome? p).isSome = true := by
  induction l with
  | nil => simp at h
  | cons a l ih =>
    rcases h with ⟨x, hx, hpx⟩
    rw [List.findSome?_cons]
    cases hpa : p a with
    | some b => simp
    | none =>
      rcases List.mem_cons.mp hx with rfl | hx'
      · rw [hpa] at hpx; simp at hpx
      · exact ih ⟨x, hx', hpx⟩

theorem basename_suffix (p : List Char) : basename p <:+ p := by
  have h : (p.reverse.takeWhile (fun c => !(c = '/'))) <+: p.reverse :=
    List.takeWhile_prefix _
  have h2 : (p.reverse.takeWhile (fun c => !(c = '/'))).reverse
      <:+ p.reverse.reverse := List.reverse_suffix.mpr h
  rw [List.reverse_reverse] at h2
  exact h2

/-! ## The claims -/

/-- C1: with default settings, a file whose only non-sentinel line is
`"  foo (a, b )"` is reported with exactly two findings, both at line 1:
one `whitespace/extra` (the space between `foo` and its parentheses) and
one `whitespace/mismatch` (0 spaces after `(` against 1 before `)`). -/
theorem scenarioA_two_findings :
    process_file "CMakeLists.txt".data 2 80 ["  foo (a, b )".data]
      = some [⟨1, "whitespace/extra".data,
                "Extra spaces between \x27foo\x27 and its ()".data⟩,
              ⟨1, "whitespace/mismatch".data,
                "Mismatching spaces inside () after command".data⟩] := by rfl

/-- C2 counterexample: in `clean_comments` with carried quote-state false,
an escaped quote (a `"` right after a `\`) is not appended to the cleansed
output: on the two-character line `\"` the output is just the backslash,
refuting the claim that the quote is emitted like any other character. -/
theorem escaped_quote_emitted_cex :
    clean_comments ['\\', '"'] false = (['\\'], false)
      ∧ '"' ∉ (clean_comments ['\\', '"'] false).1 := by decide

/-- C2 amended: a `"` whose previous character is `\` neither toggles the
quote state nor is appended to the output — the scan just moves on — and
the preceding `\` itself is emitted when outside quotes. -/
theorem escaped_quote_skipped (v : List Char) (prev : Option Char) (quote : Bool) :
    cleanCommentsLoop ('"' :: v) (some '\\') quote
        = cleanCommentsLoop v (some '"') quote
      ∧ cleanCommentsLoop ('\\' :: '"' :: v) prev false
        = ('\\' :: (cleanCommentsLoop v (some '"') false).1,
           (cleanCommentsLoop v (some '"') false).2) :=
  ⟨rfl, rfl⟩

/-- C5 counterexample: after `_1()` (a caseless command recorded as
uppercase), `abc()` (strict lower) and `ABC()` (strict upper), both strict
casing categories have been seen, yet the only `readability/mixedcase`
finding is at line 1 — none is emitted for the later of the two strict
lines (line 2). -/
theorem mixedcase_later_line_cex :
    strictLowerCmd "abc()".data = true ∧ strictUpperCmd "ABC()".data = true
      ∧ (caseFold ["_1()".data, "abc()".data, "ABC()".data] 0 none).1
        = [⟨1, "readability/mixedcase".data,
            "Do not mix upper and lower case commands".data⟩] := by decide

/-- C7: processing `FindFOO.cmake` that includes
`FindPackageHandleStandardArgs` and calls
`find_package_handle_standard_args(BAR)` yields exactly one
`package/stdargs` finding (expected `FOO`, got `BAR`) at the invocation
line 2 and no `package/consistency` finding; the mismatching call still
sets `have_used_stdargs`. -/
theorem scenarioC_findings :
    process_file "FindFOO.cmake".data 2 80
        ["include(FindPackageHandleStandardArgs)".data,
         "find_package_handle_standard_args(BAR)".data]
      = some [⟨2, "package/stdargs".data,
          "Weird variable passed to std args, should be FOO not BAR".data⟩]
      ∧ (have_used_standard_args "FindFOO.cmake".data 2 "BAR".data
          ⟨true, false⟩).2.have_used_stdargs = true :=
  ⟨rfl, rfl⟩

/-- C9: `get_command_argument` runs past the end of the cleansed lines
when an invocation such as `include()` is followed by no further
identifier token — the `IndexError`, modelled as `none` — so processing a
`Find*.cmake` file holding just `include()` crashes instead of returning
findings. -/
theorem get_command_argument_crash :
    get_command_argument
        (cleanse ["# Lines start at 1".data, "include()".data,
                  "# Lines end here".data] false) 1 = none
      ∧ process_file "FindX.cmake".data 2 80 ["include()".data] = none :=
  ⟨rfl, rfl⟩

/-- C8 counterexample: for `sub/CMAKELISTS.TXT` the basename does not
match `Find<Package>.cmake`, case-insensitively equals `cmakelists.txt`
and is not exactly `CMakeLists.txt`, yet `check_file_name` reports
nothing: the code compares the whole path, not the basename. -/
theorem cmakelists_basename_cex :
    findNameMatch (basename "sub/CMAKELISTS.TXT".data) = none
      ∧ pyLower (basename "sub/CMAKELISTS.TXT".data) = "cmakelists.txt".data
      ∧ basename "sub/CMAKELISTS.TXT".data ≠ "CMakeLists.txt".data
      ∧ check_file_name "sub/CMAKELISTS.TXT".data = [] := by decide

/-- C8 amended: when the basename does not match `Find<Package>.cmake`
and the full path (not merely the basename) case-insensitively equals
`cmakelists.txt` without being exactly `CMakeLists.txt`, exactly one
`convention/filename` finding is emitted at line 0. -/
theorem cmakelists_filename_check (filename : List Char)
    (h1 : findNameMatch (basename filename) = none)
    (h2 : pyLower filename = "cmakelists.txt".data)
    (h3 : filename ≠ "CMakeLists.txt".data) :
    check_file_name filename
      = [⟨0, "convention/filename".data,
          "File should be called CMakeLists.txt".data⟩] := by
  unfold check_file_name
  rw [h1]
  simp [h2, h3]

/-- Witness for the amended C8 theorem at `cmakelists.TXT`. -/
theorem cmakelists_filename_check_witness :
    check_file_name "cmakelists.TXT".data
      = [⟨0, "convention/filename".data,
          "File should be called CMakeLists.txt".data⟩] :=
  cmakelists_filename_check _ (by decide) (by decide) (by decide)

/-- C4: for a file whose basename starts with `Find` and ends with
`.cmake`, the terminal `done` check resets the package state on every
path, reports only `package/consistency` findings at line 0, and reports
one finding per missing condition — two when neither stdargs inclusion
nor use was seen, zero when both were. -/
theorem find_package_done_spec (filename : List Char) (st : PkgState)
    (h1 : "Find".data.isPrefixOf (basename filename) = true)
    (h2 : ".cmake".data.isSuffixOf (basename filename) = true) :
    (PkgState.done filename st).2 = ⟨false, false⟩
      ∧ (∀ f ∈ (PkgState.done filename st).1,
          f.line = 0 ∧ f.category = "package/consistency".data)
      ∧ (PkgState.done filename st).1.length
          = (if st.have_included_stdargs then 0 else 1)
            + (if st.have_used_stdargs then 0 else 1) := by
  have hsuf : ".cmake".data <:+ filename :=
    (List.isSuffixOf_iff_suffix.mp h2).trans (basename_suffix filename)
  have hfp : is_find_package filename = true := by
    unfold is_find_package
    rw [h1, List.isSuffixOf_iff_suffix.mpr hsuf]
    rfl
  obtain ⟨i, u⟩ := st
  cases i <;> cases u <;> simp_all [PkgState.done, hfp]

/-- Witness for the C4 theorem at `FindABC.cmake` with a fresh state. -/
theorem find_package_done_spec_witness :
    (PkgState.done "FindABC.cmake".data ⟨false, false⟩).2 = ⟨false, false⟩
      ∧ (PkgState.done "FindABC.cmake".data ⟨false, false⟩).1.length = 1 + 1 := by
  have h := find_package_done_spec "FindABC.cmake".data ⟨false, false⟩
    (by decide) (by decide)
  exact ⟨h.1, by simpa using h.2.2⟩

/-- C10: `set_filters` is not atomic on error — whenever the given list
or comma-separated string parses to entries among which one is invalid,
it first appends every entry to the active filter list and only then
raises `ValueError`; consequently a malformed `# lint_cmake: ` pragma
leaves its filters active while one `syntax` finding is reported. -/
theorem set_filters_nonatomic (cur : List (List Char)) (arg : FiltersArg)
    (h : ∃ f ∈ filtersEntries arg, (filterError f).isSome = true) :
    (set_filters cur arg).1 = cur ++ filtersEntries arg
      ∧ (set_filters cur arg).2.isSome = true
      ∧ ∀ n s, arg = .ofStr s →
          (check_lint_pragma n ("# lint_cmake: ".data ++ s) cur).1
              = cur ++ filtersEntries arg
            ∧ ∃ m, (check_lint_pragma n ("# lint_cmake: ".data ++ s) cur).2
                = [⟨n, "syntax".data, m⟩] := by
  have hne : filtersEntries arg ≠ [] := by
    rcases h with ⟨f, hf, _⟩
    intro he
    rw [he] at hf
    simp at hf
  have hsf : set_filters cur arg
      = (cur ++ filtersEntries arg,
         (cur ++ filtersEntries arg).findSome? filterError) := by
    match arg with
    | .ofList [] => exact absurd rfl hne
    | .ofList (a :: l) => rfl
    | .ofStr [] => exact absurd rfl hne
    | .ofStr (c :: s) => rfl
  have hval : (set_filters cur arg).2.isSome = true := by
    rw [hsf]
    rcases h with ⟨f, hf, hpf⟩
    exact findSome?_isSome _ _ ⟨f, List.mem_append_right _ hf, hpf⟩
  refine ⟨by rw [hsf], hval, ?_⟩
  intro n s hs
  subst hs
  have hpre : "# lint_cmake: ".data.isPrefixOf ("# lint_cmake: ".data ++ s)
      = true := List.isPrefixOf_iff_prefix.mpr ⟨s, rfl⟩
  have hdrop : ("# lint_cmake: ".data ++ s).drop "# lint_cmake: ".data.length
      = s := List.drop_left _ _
  rcases Option.isSome_iff_exists.mp hval with ⟨m, hm⟩
  constructor
  · simp only [check_lint_pragma, hpre, if_true, hdrop]
    rw [hsf]
  · refine ⟨m, ?_⟩
    simp only [check_lint_pragma, hpre, if_true, hdrop]
    rw [hsf] at hm ⊢
    rw [hm]

/-- Witness for the C10 theorem on the malformed pragma string
`-whitespace,zzz` (the entry `zzz` lacks a `+`/`-` prefix). -/
theorem set_filters_nonatomic_witness :
    (set_filters [] (.ofStr "-whitespace,zzz".data)).1
        = [] ++ filtersEntries (.ofStr "-whitespace,zzz".data)
      ∧ (set_filters [] (.ofStr "-whitespace,zzz".data)).2.isSome = true
      ∧ (check_lint_pragma 4 ("# lint_cmake: ".data ++ "-whitespace,zzz".data) []).1
          = [] ++ filtersEntries (.ofStr "-whitespace,zzz".data)
      ∧ ∃ m, (check_lint_pragma 4
            ("# lint_cmake: ".data ++ "-whitespace,zzz".data) []).2
          = [⟨4, "syntax".data, m⟩] := by
  have h := set_filters_nonatomic [] (.ofStr "-whitespace,zzz".data)
    ⟨"zzz".data, by decide, by decide⟩
  exact ⟨h.1, h.2.1, (h.2.2 4 _ rfl).1, (h.2.2 4 _ rfl).2⟩

theorem cleanCommentsLoop_length_le (l : List Char) :
    ∀ prev quote, (cleanCommentsLoop l prev quote).1.length ≤ l.length := by
  induction l with
  | nil => intro prev quote; exact Nat.le_refl 0
  | cons c rest ih =>
    intro prev quote
    show (cleanCommentsLoop (c :: rest) prev quote).1.length ≤ rest.length + 1
    simp only [cleanCommentsLoop]
    split
    · split
      · exact Nat.le_succ_of_le (ih _ _)
      · simpa using Nat.succ_le_succ (ih _ _)
    · split
      · simp
      · split
        · exact Nat.le_succ_of_le (ih _ _)
        · simpa using Nat.succ_le_succ (ih _ _)

theorem pyRstrip_length_le (l : List Char) : (pyRstrip l).length ≤ l.length := by
  unfold pyRstrip dropTrailing
  calc ((l.reverse.dropWhile isPySpace).reverse).length
      = (l.reverse.dropWhile isPySpace).length := List.length_reverse _
    _ ≤ l.reverse.length := length_dropWhile_le _ _
    _ = l.length := List.length_reverse _

theorem cleanCommentsLoop_continue (v : List Char) :
    ∀ (u : List Char) (prev : Option Char) (q : Bool) (o : List Char),
      cleanCommentsLoop u prev q = (o, true, false) →
      cleanCommentsLoop (u ++ '#' :: v) prev q
        = (o ++ (cleanCommentsLoop v (some '#') true).1,
           (cleanCommentsLoop v (some '#') true).2) := by
  intro u
  induction u with
  | nil =>
    intro prev q o h
    have ho : ([] : List Char) = o := congrArg Prod.fst h
    have hq : q = true := congrArg (fun x => x.2.1) h
    subst hq
    rw [← ho]
    rfl
  | cons c u' ih =>
    intro prev q o h
    rw [List.cons_append]
    simp only [cleanCommentsLoop] at h ⊢
    split at h
    next hc =>
      split at h
      next hp =>
        rw [if_pos hc, if_pos hp]
        exact ih _ _ _ h
      next hp =>
        rw [if_pos hc, if_neg hp]
        have ho : c :: (cleanCommentsLoop u' (some c) !q).1 = o :=
          congrArg Prod.fst h
        have h2 : (cleanCommentsLoop u' (some c) !q).2 = (true, false) :=
          congrArg Prod.snd h
        have hrec := ih (some c) (!q) (cleanCommentsLoop u' (some c) !q).1
          (by rw [← h2])
        rw [hrec, ← ho]
        simp
    next hc =>
      split at h
      next hb =>
        have h3 : true = false := congrArg (fun x => x.2.2) h
        exact absurd h3 (by decide)
      next hb =>
        rw [if_neg hc, if_neg hb]
        have ho : (if q = true then (cleanCommentsLoop u' (some c) q).1
            else c :: (cleanCommentsLoop u' (some c) q).1) = o :=
          congrArg Prod.fst h
        have h2 : (cleanCommentsLoop u' (some c) q).2 = (true, false) :=
          congrArg Prod.snd h
        have hrec := ih (some c) q (cleanCommentsLoop u' (some c) q).1
          (by rw [← h2])
        rw [hrec, ← ho]
        cases q <;> simp

/-- C6: the cleansed line returned by `clean_comments` is never longer
than the raw line; and when the scan reaches a `#` while inside a quoted
region (having started the line outside quotes and not broken earlier),
the `#` does not terminate the line as a comment — the scan continues
past it into the rest of the line. -/
theorem clean_comments_invariants :
    (∀ line quote, (clean_comments line quote).1.length ≤ line.length)
      ∧ ∀ u v prev o, cleanCommentsLoop u prev false = (o, true, false) →
          cleanCommentsLoop (u ++ '#' :: v) prev false
            = (o ++ (cleanCommentsLoop v (some '#') true).1,
               (cleanCommentsLoop v (some '#') true).2) := by
  constructor
  · intro line quote
    unfold clean_comments
    split
    · split <;> simp
    · exact le_trans (pyRstrip_length_le _) (cleanCommentsLoop_length_le _ _ _)
  · intro u v prev o h
    exact cleanCommentsLoop_continue v u prev false o h

/-- Witness for the C6 theorem: the line `"#x` opens a quote, so its `#`
is consumed without ending the line. -/
theorem clean_comments_invariants_witness :
    (clean_comments "ab".data false).1.length ≤ "ab".data.length
      ∧ cleanCommentsLoop ('"' :: '#' :: 'x' :: []) none false
        = (['"'], true, false) := by
  refine ⟨clean_comments_invariants.1 "ab".data false, ?_⟩
  have h := clean_comments_invariants.2 ['"'] ('x' :: []) none ['"'] (by rfl)
  exact h.trans (by decide)

theorem strictLowerCmd_props (l : List Char) (h : strictLowerCmd l = true) :
    contains_command l = true
      ∧ is_command_mixed_case (get_command l) = false
      ∧ is_command_upper_case (get_command l) = false := by
  simp only [strictLowerCmd, Bool.and_eq_true, Bool.not_eq_true',
    decide_eq_true_eq, decide_eq_false_iff_not] at h
  obtain ⟨⟨h1, h2⟩, h3⟩ := h
  refine ⟨h1, ?_, ?_⟩
  · have hd : decide (get_command l = pyLower (get_command l)) = true :=
      decide_eq_true h2
    simp only [is_command_mixed_case]
    rw [hd]
    rfl
  · simp only [is_command_upper_case]
    exact decide_eq_false h3

theorem strictUpperCmd_props (l : List Char) (h : strictUpperCmd l = true) :
    contains_command l = true
      ∧ is_command_mixed_case (get_command l) = false
      ∧ is_command_upper_case (get_command l) = true := by
  simp only [strictUpperCmd, Bool.and_eq_true, Bool.not_eq_true',
    decide_eq_true_eq, decide_eq_false_iff_not] at h
  obtain ⟨⟨h1, h2⟩, h3⟩ := h
  refine ⟨h1, ?_, ?_⟩
  · have hd : decide (get_command l = pyUpper (get_command l)) = true :=
      decide_eq_true h2
    simp only [is_command_mixed_case]
    rw [hd]
    simp
  · simp only [is_command_upper_case]
    exact decide_eq_true h2

theorem check_upper_seen_some (n : Nat) (a : List Char) (b : Bool) :
    (check_upper_lower_case n a (some b)).2 = some b := by
  unfold check_upper_lower_case
  by_cases hc : contains_command a = true
  · rw [if_pos hc]
    by_cases hm : is_command_mixed_case (get_command a) = true
    · rw [if_pos hm]
    · rw [if_neg hm, if_neg (by simp : ¬(some b = (none : Option Bool)))]
      by_cases hu : some (is_command_upper_case (get_command a)) ≠ some b
      · rw [if_pos hu]
      · rw [if_neg hu]
  · rw [if_neg hc]

theorem caseFold_some_agree (b : Bool) :
    ∀ (ls : List (List Char)) (n : Nat),
      (∀ f ∈ (caseFold ls n (some b)).1,
        f.category ≠ "readability/mixedcase".data) →
      ∀ l ∈ ls, contains_command l = true →
        is_command_mixed_case (get_command l) = false →
        is_command_upper_case (get_command l) = b := by
  intro ls
  induction ls with
  | nil =>
    intro n h l hl
    simp at hl
  | cons a ls ih =>
    intro n h l hl hcc hmx
    rcases List.mem_cons.mp hl with rfl | hl'
    · by_cases hub : is_command_upper_case (get_command l) = b
      · exact hub
      · exfalso
        have hstep : check_upper_lower_case n l (some b)
            = ([⟨n, "readability/mixedcase".data,
                "Do not mix upper and lower case commands".data⟩], some b) := by
          unfold check_upper_lower_case
          rw [if_pos hcc, if_neg (by simp [hmx]),
            if_neg (by simp : ¬(some b = (none : Option Bool))),
            if_pos (by simpa using hub)]
        have hmem : (⟨n, "readability/mixedcase".data,
            "Do not mix upper and lower case commands".data⟩ : Finding)
            ∈ (caseFold (l :: ls) n (some b)).1 := by
          simp only [caseFold, hstep]
          exact List.mem_append_left _ (List.mem_singleton.mpr rfl)
        exact h _ hmem rfl
    · have hrest : ∀ f ∈ (caseFold ls (n + 1) (some b)).1,
          f.category ≠ "readability/mixedcase".data := by
        intro f hf
        apply h
        show f ∈ (caseFold (a :: ls) n (some b)).1
        simp only [caseFold]
        rw [check_upper_seen_some]
        exact List.mem_append_right _ hf
      exact ih (n + 1) hrest l hl' hcc hmx

theorem caseFold_none_agree :
    ∀ (ls : List (List Char)) (n : Nat),
      (∀ f ∈ (caseFold ls n none).1,
        f.category ≠ "readability/mixedcase".data) →
      ∀ l1 ∈ ls, ∀ l2 ∈ ls,
        contains_command l1 = true →
        is_command_mixed_case (get_command l1) = false →
        contains_command l2 = true →
        is_command_mixed_case (get_command l2) = false →
        is_command_upper_case (get_command l1)
          = is_command_upper_case (get_command l2) := by
  intro ls
  induction ls with
  | nil =>
    intro n h l1 hl1
    simp at hl1
  | cons a ls ih =>
    intro n h l1 hl1 l2 hl2 hc1 hm1 hc2 hm2
    by_cases hca : contains_command a = true
    · by_cases hma : is_command_mixed_case (get_command a) = true
      · have hstep : check_upper_lower_case n a none
            = ([⟨n, "readability/wonkycase".data,
                "Do not use mixed case commands".data⟩], none) := by
          unfold check_upper_lower_case
          rw [if_pos hca, if_pos hma]
        have hrest : ∀ f ∈ (caseFold ls (n + 1) none).1,
            f.category ≠ "readability/mixedcase".data := by
          intro f hf
          apply h
          show f ∈ (caseFold (a :: ls) n none).1
          simp only [caseFold, hstep]
          exact List.mem_append_right _ hf
        rcases List.mem_cons.mp hl1 with rfl | hl1'
        · rw [hma] at hm1; cases hm1
        rcases List.mem_cons.mp hl2 with rfl | hl2'
        · rw [hma] at hm2; cases hm2
        exact ih (n + 1) hrest l1 hl1' l2 hl2' hc1 hm1 hc2 hm2
      · have hmaf : is_command_mixed_case (get_command a) = false := by
          cases hx : is_command_mixed_case (get_command a) with
          | false => rfl
          | true => exact absurd hx hma
        have hstep : check_upper_lower_case n a none
            = ([], some (is_command_upper_case (get_command a))) := by
          unfold check_upper_lower_case
          rw [if_pos hca, if_neg (by simp [hmaf]), if_pos rfl]
        have hrest : ∀ f ∈ (caseFold ls (n + 1)
            (some (is_command_upper_case (get_command a)))).1,
            f.category ≠ "readability/mixedcase".data := by
          intro f hf
          apply h
          show f ∈ (caseFold (a :: ls) n none).1
          simp only [caseFold, hstep]
          simpa using hf
        have key := caseFold_some_agree (is_command_upper_case (get_command a))
          ls (n + 1) hrest
        rcases List.mem_cons.mp hl1 with rfl | hl1' <;>
          rcases List.mem_cons.mp hl2 with rfl | hl2'
        · rfl
        · exact (key l2 hl2' hc2 hm2).symm
        · exact key l1 hl1' hc1 hm1
        · rw [key l1 hl1' hc1 hm1, key l2 hl2' hc2 hm2]
    · have hstep : check_upper_lower_case n a none = ([], none) := by
        unfold check_upper_lower_case
        rw [if_neg hca]
      have hrest : ∀ f ∈ (caseFold ls (n + 1) none).1,
          f.category ≠ "readability/mixedcase".data := by
        intro f hf
        apply h
        show f ∈ (caseFold (a :: ls) n none).1
        simp only [caseFold, hstep]
        simpa using hf
      rcases List.mem_cons.mp hl1 with rfl | hl1'
      · exact absurd hc1 hca
      rcases List.mem_cons.mp hl2 with rfl | hl2'
      · exact absurd hc2 hca
      exact ih (n + 1) hrest l1 hl1' l2 hl2' hc1 hm1 hc2 hm2

/-- C5 (amended): a command-starting line whose command name mixes cases
always yields `readability/wonkycase`, whatever was seen before and
without touching the per-file state; and once a strictly-lowercase and a
strictly-uppercase command line have both been seen in a file, some
`readability/mixedcase` finding has been emitted — though not necessarily
at the later of the two lines. -/
theorem case_consistency_invariant :
    (∀ (n : Nat) (line : List Char) (seen : Option Bool),
        contains_command line = true →
        is_command_mixed_case (get_command line) = true →
        check_upper_lower_case n line seen
          = ([⟨n, "readability/wonkycase".data,
              "Do not use mixed case commands".data⟩], seen))
      ∧ ∀ (ls : List (List Char)) (n : Nat),
          (∃ l ∈ ls, strictLowerCmd l = true) →
          (∃ l ∈ ls, strictUpperCmd l = true) →
          ∃ f ∈ (caseFold ls n none).1,
            f.category = "readability/mixedcase".data := by
  constructor
  · intro n line seen hc hm
    unfold check_upper_lower_case
    rw [if_pos hc, if_pos hm]
  · intro ls n h1 h2
    by_contra hno
    push_neg at hno
    rcases h1 with ⟨l1, hl1, hs1⟩
    rcases h2 with ⟨l2, hl2, hs2⟩
    obtain ⟨hc1, hm1, hu1⟩ := strictLowerCmd_props l1 hs1
    obtain ⟨hc2, hm2, hu2⟩ := strictUpperCmd_props l2 hs2
    have hagree := caseFold_none_agree ls n hno l1 hl1 l2 hl2 hc1 hm1 hc2 hm2
    rw [hu1, hu2] at hagree
    cases hagree

/-- Witness for the C5 theorem: the mixed-case command `fOo(` and the
file `abc()` / `ABC()`. -/
theorem case_consistency_invariant_witness :
    check_upper_lower_case 3 "fOo(".data (some true)
        = ([⟨3, "readability/wonkycase".data,
            "Do not use mixed case commands".data⟩], some true)
      ∧ ∃ f ∈ (caseFold ["abc()".data, "ABC()".data] 0 none).1,
          f.category = "readability/mixedcase".data := by
  refine ⟨case_consistency_invariant.1 3 _ (some true) (by decide) (by decide), ?_⟩
  exact case_consistency_invariant.2 _ 0
    ⟨"abc()".data, by decide, by decide⟩ ⟨"ABC()".data, by decide, by decide⟩

theorem isWordChar_of_isPySpace (c : Char) (h : isPySpace c = true) :
    isWordChar c = false := by
  simp only [isPySpace, Bool.or_eq_true, decide_eq_true_eq] at h
  rcases h with ((((h | h) | h) | h) | h) | h <;> subst h <;> decide

theorem all_takeWhile (p : Char → Bool) (l : List Char) :
    (l.takeWhile p).all p = true := by
  rw [List.all_eq_true]
  intro c hc
  exact List.mem_takeWhile_imp hc

theorem drop_takeWhile_length (p : Char → Bool) (s : List Char) :
    s.drop (s.takeWhile p).length = s.dropWhile p := by
  induction s with
  | nil => rfl
  | cons c cs ih =>
    by_cases h : p c
    · rw [List.takeWhile_cons, List.dropWhile_cons, if_pos h, if_pos h]
      simpa [List.length_cons] using ih
    · rw [List.takeWhile_cons, List.dropWhile_cons, if_neg h, if_neg h]
      simp

theorem takeWhile_append_of_all (p : Char → Bool) :
    ∀ (a b : List Char), a.all p = true →
      (∀ c, b.head? = some c → p c = false) →
      (a ++ b).takeWhile p = a := by
  intro a
  induction a with
  | nil =>
    intro b _ hb
    cases b with
    | nil => rfl
    | cons c bs =>
      rw [List.nil_append, List.takeWhile_cons, hb c rfl]
      simp
  | cons z a ih =>
    intro b ha hb
    rw [List.all_cons, Bool.and_eq_true] at ha
    rw [List.cons_append, List.takeWhile_cons, ha.1]
    rw [ih b ha.2 hb]
    simp

theorem dropWhile_append_of_all (p : Char → Bool) :
    ∀ (a b : List Char), a.all p = true →
      (∀ c, b.head? = some c → p c = false) →
      (a ++ b).dropWhile p = b := by
  intro a
  induction a with
  | nil =>
    intro b _ hb
    cases b with
    | nil => rfl
    | cons c bs =>
      rw [List.nil_append, List.dropWhile_cons, hb c rfl]
      simp
  | cons z a ih =>
    intro b ha hb
    rw [List.all_cons, Bool.and_eq_true] at ha
    rw [List.cons_append, List.dropWhile_cons]
    simp only [ha.1, if_true]
    exact ih b ha.2 hb

theorem tailMatches_iff (t : List Char) :
    tailMatches t = true ↔
      ∃ x y v : List Char, t = x ++ (y ++ (')' :: v))
        ∧ x ≠ [] ∧ x.all (fun c => !isPySpace c) = true
        ∧ y ≠ [] ∧ y.all (fun c => !(c = ')')) = true := by
  constructor
  · intro h
    unfold tailMatches at h
    rw [List.any_eq_true] at h
    obtain ⟨k, hkmem, hcond⟩ := h
    rw [List.mem_range] at hkmem
    rw [Bool.and_eq_true, Bool.and_eq_true] at hcond
    obtain ⟨⟨hk0, hxall⟩, hrest⟩ := hcond
    rw [decide_eq_true_eq] at hk0
    rw [List.any_eq_true] at hrest
    obtain ⟨m, hmmem, hcond2⟩ := hrest
    rw [List.mem_range] at hmmem
    rw [Bool.and_eq_true, Bool.and_eq_true] at hcond2
    obtain ⟨⟨hm0, hyall⟩, hget⟩ := hcond2
    rw [decide_eq_true_eq] at hm0 hget
    obtain ⟨hkm, hval⟩ := List.get?_eq_some.mp hget
    have hdropkm : t.drop (k + m) = ')' :: t.drop (k + m + 1) := by
      rw [List.drop_eq_getElem_cons hkm]
      have hv : t[k + m] = ')' := by
        simpa [List.get_eq_getElem] using hval
      rw [hv]
    refine ⟨t.take k, (t.drop k).take m, t.drop (k + m + 1), ?_, ?_, hxall, ?_, hyall⟩
    · conv_lhs => rw [← List.take_append_drop k t]
      congr 1
      conv_lhs => rw [← List.take_append_drop m (t.drop k)]
      congr 1
      rw [List.drop_drop]
      exact hdropkm
    · have hlen : (t.take k).length = k := by
        rw [List.length_take]
        exact min_eq_left (Nat.le_of_lt (Nat.lt_of_le_of_lt (Nat.le_add_right k m) hkm))
      intro hnil
      rw [hnil] at hlen
      simp at hlen
      omega
    · have hlen : ((t.drop k).take m).length = m := by
        rw [List.length_take, List.length_drop]
        refine min_eq_left ?_
        omega
      intro hnil
      rw [hnil] at hlen
      simp at hlen
      omega
  · rintro ⟨x, y, v, ht, hx, hxall, hy, hyall⟩
    have hxpos : 0 < x.length := List.length_pos.mpr hx
    have hypos : 0 < y.length := List.length_pos.mpr hy
    have hlen : t.length = x.length + y.length + 1 + v.length := by
      rw [ht]
      simp [List.length_append]
      omega
    unfold tailMatches
    rw [List.any_eq_true]
    refine ⟨x.length, ?_, ?_⟩
    · rw [List.mem_range]
      omega
    · rw [Bool.and_eq_true, Bool.and_eq_true]
      refine ⟨⟨decide_eq_true hxpos, ?_⟩, ?_⟩
      · rw [ht, List.take_left]
        exact hxall
      · rw [List.any_eq_true]
        refine ⟨y.length, ?_, ?_⟩
        · rw [List.mem_range]
          omega
        · rw [Bool.and_eq_true, Bool.and_eq_true]
          refine ⟨⟨decide_eq_true hypos, ?_⟩, ?_⟩
          · rw [ht, List.drop_left, List.take_left]
            exact hyall
          · refine decide_eq_true ?_
            rw [ht, List.get?_append_right (Nat.le_add_right _ _),
              Nat.add_sub_cancel_left,
              List.get?_append_right (Nat.le_refl _), Nat.sub_self]
            rfl

theorem logicMatchAt_isSome_iff (s : List Char) :
    (logicMatchAt s).isSome = true ↔
      ∃ w s1 s2 x y v : List Char,
        s = w ++ (s1 ++ ('(' :: (s2 ++ (x ++ (y ++ (')' :: v))))))
          ∧ w ≠ [] ∧ w.all isWordChar = true
          ∧ s1.all isPySpace = true ∧ s2.all isPySpace = true
          ∧ x ≠ [] ∧ x.all (fun c => !isPySpace c) = true
          ∧ y ≠ [] ∧ y.all (fun c => !(c = ')')) = true := by
  constructor
  · intro h
    simp only [logicMatchAt] at h
    by_cases hw : (s.takeWhile isWordChar).isEmpty = true
    · rw [if_pos hw] at h
      simp at h
    · rw [if_neg hw] at h
      by_cases hhd : ((s.drop (s.takeWhile isWordChar).length).dropWhile
          isPySpace).head? = some '('
      · rw [if_pos hhd] at h
        by_cases htm : tailMatches (((s.drop (s.takeWhile isWordChar).length).dropWhile
            isPySpace).tail.dropWhile isPySpace) = true
        · obtain ⟨x, y, v, hC, hx, hxall, hy, hyall⟩ := (tailMatches_iff _).mp htm
          have hA : s.drop (s.takeWhile isWordChar).length = s.dropWhile isWordChar :=
            drop_takeWhile_length _ _
          rw [hA] at hhd hC
          have hB : (s.dropWhile isWordChar).dropWhile isPySpace
              = '(' :: ((s.dropWhile isWordChar).dropWhile isPySpace).tail := by
            cases hd : (s.dropWhile isWordChar).dropWhile isPySpace with
            | nil => rw [hd] at hhd; simp at hhd
            | cons b bs =>
              rw [hd] at hhd
              simp only [List.head?_cons, Option.some.injEq] at hhd
              rw [hhd]
              rfl
          have hwne : s.takeWhile isWordChar ≠ [] := by
            intro hnil
            rw [hnil] at hw
            exact hw rfl
          refine ⟨s.takeWhile isWordChar,
            (s.dropWhile isWordChar).takeWhile isPySpace,
            (((s.dropWhile isWordChar).dropWhile isPySpace).tail).takeWhile isPySpace,
            x, y, v, ?_, hwne, all_takeWhile _ _, all_takeWhile _ _,
            all_takeWhile _ _, hx, hxall, hy, hyall⟩
          have hfinal : s.takeWhile isWordChar
              ++ ((s.dropWhile isWordChar).takeWhile isPySpace
                ++ ('(' ::
                  ((((s.dropWhile isWordChar).dropWhile isPySpace).tail).takeWhile
                      isPySpace
                    ++ (x ++ (y ++ (')' :: v)))))) = s := by
            rw [← hC]
            rw [List.takeWhile_append_dropWhile isPySpace
              (((s.dropWhile isWordChar).dropWhile isPySpace).tail)]
            rw [← hB]
            rw [List.takeWhile_append_dropWhile isPySpace (s.dropWhile isWordChar)]
            rw [List.takeWhile_append_dropWhile isWordChar s]
          exact hfinal.symm
        · rw [if_neg htm] at h
          simp at h
      · rw [if_neg hhd] at h
        simp at h
  · rintro ⟨w, s1, s2, x, y, v, hs, hwne, hwall, hs1, hs2, hx, hxall, hy, hyall⟩
    have hwordhead : ∀ c, (s1 ++ ('(' :: (s2 ++ (x ++ (y ++ (')' :: v)))))).head?
        = some c → isWordChar c = false := by
      intro c hc
      cases s1 with
      | nil =>
        simp only [List.nil_append, List.head?_cons, Option.some.injEq] at hc
        subst hc
        decide
      | cons a s1' =>
        simp only [List.cons_append, List.head?_cons, Option.some.injEq] at hc
        subst hc
        rw [List.all_cons, Bool.and_eq_true] at hs1
        exact isWordChar_of_isPySpace _ hs1.1
    have hwtake : s.takeWhile isWordChar = w := by
      rw [hs]
      exact takeWhile_append_of_all _ _ _ hwall hwordhead
    have hwdrop : s.drop (s.takeWhile isWordChar).length
        = s1 ++ ('(' :: (s2 ++ (x ++ (y ++ (')' :: v))))) := by
      rw [hwtake, hs, List.drop_left]
    have hparhead : ∀ c, ('(' :: (s2 ++ (x ++ (y ++ (')' :: v))))).head?
        = some c → isPySpace c = false := by
      intro c hc
      simp only [List.head?_cons, Option.some.injEq] at hc
      subst hc
      decide
    have hd : (s.drop (s.takeWhile isWordChar).length).dropWhile isPySpace
        = '(' :: (s2 ++ (x ++ (y ++ (')' :: v)))) := by
      rw [hwdrop]
      exact dropWhile_append_of_all _ _ _ hs1 hparhead
    have hxhead : ∀ c, (x ++ (y ++ (')' :: v))).head? = some c →
        isPySpace c = false := by
      intro c hc
      cases x with
      | nil => exact absurd rfl hx
      | cons a x' =>
        simp only [List.cons_append, List.head?_cons, Option.some.injEq] at hc
        subst hc
        rw [List.all_cons, Bool.and_eq_true] at hxall
        simpa using hxall.1
    have htail : (('(' :: (s2 ++ (x ++ (y ++ (')' :: v))))).tail).dropWhile isPySpace
        = x ++ (y ++ (')' :: v)) := by
      simp only [List.tail_cons]
      exact dropWhile_append_of_all _ _ _ hs2 hxhead
    have hwemp : (s.takeWhile isWordChar).isEmpty = false := by
      rw [hwtake]
      cases w with
      | nil => exact absurd rfl hwne
      | cons a w' => rfl
    simp only [logicMatchAt, hwemp, Bool.false_eq_true, if_false, hd,
      List.head?_cons, if_pos rfl, htail]
    rw [(tailMatches_iff _).mpr ⟨x, y, v, rfl, hx, hxall, hy, hyall⟩]
    simp

theorem logicSearch_suffix_isSome :
    ∀ (u s : List Char), (logicMatchAt s).isSome = true → s ≠ [] →
      (logicSearch (u ++ s)).isSome = true := by
  intro u
  induction u with
  | nil =>
    intro s hs hne
    rw [List.nil_append]
    cases s with
    | nil => exact absurd rfl hne
    | cons c cs =>
      simp only [logicSearch]
      cases hm : logicMatchAt (c :: cs) with
      | some z => rfl
      | none => rw [hm] at hs; simp at hs
  | cons c u' ih =>
    intro s hs hne
    rw [List.cons_append]
    simp only [logicSearch]
    cases hm : logicMatchAt (c :: (u' ++ s)) with
    | some z => rfl
    | none => exact ih s hs hne

theorem logicSearch_isSome_iff (line : List Char) :
    (logicSearch line).isSome = true ↔ logicPatternSpec line := by
  constructor
  · induction line with
    | nil =>
      intro h
      simp [logicSearch] at h
    | cons c rest ih =>
      intro h
      cases hm : logicMatchAt (c :: rest) with
      | some w =>
        obtain ⟨w', s1, s2, x, y, v, heq, h1, h2, h3, h4, h5, h6, h7, h8⟩ :=
          (logicMatchAt_isSome_iff (c :: rest)).mp (by rw [hm]; rfl)
        exact ⟨[], w', s1, s2, x, y, v, by simpa using heq,
          h1, h2, h3, h4, h5, h6, h7, h8⟩
      | none =>
        simp only [logicSearch] at h
        rw [hm] at h
        obtain ⟨u, w', s1, s2, x, y, v, heq, h1, h2, h3, h4, h5, h6, h7, h8⟩ :=
          ih h
        exact ⟨c :: u, w', s1, s2, x, y, v, by rw [List.cons_append, heq],
          h1, h2, h3, h4, h5, h6, h7, h8⟩
  · rintro ⟨u, w, s1, s2, x, y, v, heq, hwne, hwall, hs1, hs2, hx, hxall, hy, hyall⟩
    subst heq
    refine logicSearch_suffix_isSome u _ ?_ ?_
    · exact (logicMatchAt_isSome_iff _).mpr
        ⟨w, s1, s2, x, y, v, rfl, hwne, hwall, hs1, hs2, hx, hxall, hy, hyall⟩
    · cases w with
      | nil => exact absurd rfl hwne
      | cons a w' => simp

/-- C3 (amended): `check_repeat_logic` reports a finding exactly when the
lowered line contains one of the six keywords as a whole word and the
line — anywhere, not necessarily after the keyword — contains an
identifier, optional whitespace, `(`, optional whitespace, then a
nonempty non-whitespace run followed by a nonempty `)`-free run and the
closing `)` (so a single-character argument as in `endif(x)` does not
trigger it); every reported finding is `readability/logic` at the
examined line. -/
theorem repeat_logic_characterization :
    (∀ (n : Nat) (line : List Char),
        check_repeat_logic n line ≠ []
          ↔ (∃ kw ∈ logicCommands, wordOccurs kw (pyLower line) = true)
              ∧ logicPatternSpec line)
      ∧ ∀ (n : Nat) (line : List Char), ∀ f ∈ check_repeat_logic n line,
          f.line = n ∧ f.category = "readability/logic".data := by
  constructor
  · intro n line
    unfold check_repeat_logic
    cases hk : findFirstKeyword (pyLower line) with
    | none =>
      constructor
      · intro hne
        exact absurd rfl hne
      · rintro ⟨⟨kw, hkw, hocc⟩, _⟩
        have hsome : (findFirstKeyword (pyLower line)).isSome = true := by
          unfold findFirstKeyword
          rw [List.find?_isSome]
          exact ⟨kw, hkw, hocc⟩
        rw [hk] at hsome
        simp at hsome
    | some kw =>
      cases hs : logicSearch line with
      | none =>
        constructor
        · intro hne
          exact absurd rfl hne
        · rintro ⟨_, hpat⟩
          have hsome : (logicSearch line).isSome = true :=
            (logicSearch_isSome_iff line).mpr hpat
          rw [hs] at hsome
          simp at hsome
      | some g =>
        constructor
        · intro _
          refine ⟨?_, (logicSearch_isSome_iff line).mp (by rw [hs]; rfl)⟩
          have hsome : (findFirstKeyword (pyLower line)).isSome = true := by
            rw [hk]
            rfl
          unfold findFirstKeyword at hsome
          rw [List.find?_isSome] at hsome
          exact hsome
        · intro _
          simp
  · intro n line f hf
    unfold check_repeat_logic at hf
    cases hk : findFirstKeyword (pyLower line) with
    | none =>
      rw [hk] at hf
      simp at hf
    | some kw =>
      rw [hk] at hf
      cases hs : logicSearch line with
      | none =>
        rw [hs] at hf
        simp at hf
      | some g =>
        rw [hs] at hf
        simp only [List.mem_singleton] at hf
        subst hf
        exact ⟨rfl, rfl⟩

/-- Witness for the C3 theorem on the line `endif(a b)`. -/
theorem repeat_logic_characterization_witness :
    check_repeat_logic 5 "endif(a b)".data ≠ []
      ∧ ∃ f ∈ check_repeat_logic 5 "endif(a b)".data,
          f.line = 5 ∧ f.category = "readability/logic".data := by
  have hmem : (⟨5, "readability/logic".data,
      "Expression repeated inside ".data ++ "endif".data
        ++ "; better to use only ".data ++ "endif".data ++ "()".data⟩ : Finding)
      ∈ check_repeat_logic 5 "endif(a b)".data := by decide
  refine ⟨?_, ⟨_, hmem, repeat_logic_characterization.2 5 _ _ hmem⟩⟩
  exact (repeat_logic_characterization.1 5 _).mpr
    ⟨⟨"endif".data, by decide, by decide⟩,
     ⟨[], "endif".data, [], [], ['a'], [' ', 'b'], [], by decide, by decide,
      by decide, by decide, by decide, by decide, by decide, by decide, by decide⟩⟩

/-- C3 counterexample: the cleansed line `endif(x)` contains the keyword
`endif` followed by a parenthesized expression with the non-trivial
content `x`, yet `check_repeat_logic` reports nothing — the pattern
`\S+[^)]+\)` needs at least two characters between the parentheses. -/
theorem repeat_logic_claim_cex :
    repeatLogicClaimPred "endif(x)".data
      ∧ check_repeat_logic 7 "endif(x)".data = [] := by
  constructor
  · exact ⟨"endif".data, by decide, [], [], ['x'], [], by decide, by decide,
      by decide, by decide⟩
  · rfl

end Cmakelint
